import Mathlib

/-!
# Verification of the `quantile-estimator` package

Shallow embedding of `quantile_estimator/__init__.py` (the Cormode–Muthukrishnan
biased-quantile summary and its sliding-time-window wrapper).

Modelling conventions:
* Python floats are modelled by exact rationals `ℚ`; the only float special
  value the code manufactures is `float("nan")` (in `_Quantile.__init__`), and
  any quantity that may be NaN is modelled as `Option ℚ` with `none` for NaN.
  A comparison `delta < minimum` in which `delta` is NaN is `False` in Python,
  which is exactly the `none` branch of the fold in `Estimator.invariant`.
* The singly linked chain of `_Sample` nodes is modelled as a `List Sample`
  (head first); the cursor walking of `_replace_batch` is modelled as a zipper
  `(pre, cur, post)` with the represented chain being `pre ++ cur :: post`.
* Mutating methods become state-passing functions; `query`, which flushes
  internally, returns the answer together with the updated estimator, and the
  NaN result for an empty estimator is `none`.
* Wall-clock time (`time_ms`) is passed explicitly as an integer millisecond
  timestamp to the sliding-window operations.
-/

namespace QE

/-- One cataloged observation: `_Sample` from the source, minus the
`_successor` pointer (the chain is a `List Sample`). `rank` is the field
`_rank` (rank width, `g`), `delta` the field `_delta` (uncertainty). -/
structure Sample where
  value : ℚ
  rank : ℚ
  delta : ℚ
deriving DecidableEq, Repr

/-- Target `_Quantile`: one estimation target.  `coefficient_i`/`coefficient_ii`
are `none` exactly when the Python code stores `float("nan")`. -/
structure Quantile where
  quantile : ℚ
  inaccuracy : ℚ
  coefficient_i : Option ℚ
  coefficient_ii : Option ℚ
deriving DecidableEq, Repr

/-- Constructor `_Quantile.__init__`. -/
def Quantile.init (quantile inaccuracy : ℚ) : Quantile :=
  { quantile := quantile
    inaccuracy := inaccuracy
    coefficient_i :=
      if quantile ≠ 1 then some ((2 * inaccuracy) / (1 - quantile)) else none
    coefficient_ii :=
      if quantile ≠ 0 then some (2 * inaccuracy / quantile) else none }

/-- Method `_Quantile._delta`.  A NaN coefficient makes the result NaN (`none`),
since `NaN * x = NaN` for floats. -/
def Quantile.delta (i : Quantile) (rank n : ℚ) : Option ℚ :=
  if rank ≤ (⌊i.quantile * n⌋ : ℚ) then
    i.coefficient_i.map fun c => c * (n - rank)
  else
    i.coefficient_ii.map fun c => c * rank

/-- Constant `_DEFAULT_INVARIANTS = [_Quantile(0.50, 0.01), _Quantile(0.99, 0.001)]`. -/
def defaultInvariants : List Quantile :=
  [Quantile.init (1/2) (1/100), Quantile.init (99/100) (1/1000)]

/-- Constant `_BUFFER_SIZE = 512`. -/
def BUFFER_SIZE : ℕ := 512

/-- The `Estimator` state: registered targets, pending buffer, the sample
chain (head first; `[]` models `self._head is None`) and the `_observations`
counter. -/
structure Estimator where
  invariants : List Quantile
  buffer : List ℚ
  chain : List Sample
  observations : ℕ
deriving DecidableEq, Repr

/-- Constructor `Estimator.__init__`: empty argument list selects the default targets. -/
def Estimator.init (invariants : List (ℚ × ℚ)) : Estimator :=
  { invariants :=
      if invariants.isEmpty then defaultInvariants
      else invariants.map fun p => Quantile.init p.1 p.2
    buffer := []
    chain := []
    observations := 0 }

/-- Method `Estimator._invariant`: fold the targets' deltas starting from `n + 1`,
where a NaN delta (`none`) never passes the `delta < minimum` test, then
floor. -/
def Estimator.invariant (invs : List Quantile) (rank n : ℚ) : ℤ :=
  ⌊invs.foldl
      (fun minimum i =>
        match i.delta rank n with
        | none => minimum
        | some d => if d < minimum then d else minimum)
      (n + 1)⌋

/-- Value of `self._head` seen from a zipper position: the first element of
`pre`, or `cur` when the cursor is at the head. -/
def headVal (pre : List Sample) (cur : Sample) : ℚ :=
  match pre with
  | [] => cur.value
  | h :: _ => h.value

/-- Result of the cursor walk inside `_replace_batch`. -/
structure Walk where
  rank : ℚ
  pre : List Sample
  cur : Sample
  post : List Sample
deriving DecidableEq, Repr

/-- The walk `while current._successor and current._value < b:
rank += current._rank; current = current._successor`. -/
def walkCursor (b : ℚ) (rank : ℚ) (pre : List Sample) (cur : Sample) :
    List Sample → Walk
  | [] => ⟨rank, pre, cur, []⟩
  | nxt :: rest =>
    if cur.value < b then walkCursor b (rank + cur.rank) (pre ++ [cur]) nxt rest
    else ⟨rank, pre, cur, nxt :: rest⟩

/-- Loop state of `_replace_batch`: the `_observations` counter, the
running `rank`, and the zipper around the cursor (the chain being
`pre ++ cur :: post`). -/
structure InsState where
  obs : ℕ
  rank : ℚ
  pre : List Sample
  cur : Sample
  post : List Sample
deriving DecidableEq, Repr

/-- The chain represented by a `_replace_batch` loop state. -/
def chainOf (st : InsState) : List Sample :=
  st.pre ++ st.cur :: st.post

/-- The body of the `for b in self._buffer` loop of `_replace_batch`
(each `self._record` call increments the observation counter by one):
* `if b < self._head._value:` prepend a new head `self._record(b, 1, 0, head)`;
* walk the cursor (`while current._successor and current._value < b`);
* `if not current._successor:` append a tail `self._record(b, 1, 0, None)`;
* insert `self._record(b, 1, self._invariant(rank, self._observations) - 1, …)`
  right after the cursor. -/
def insertOne (invs : List Quantile) (st : InsState) (b : ℚ) : InsState :=
  let p := if b < headVal st.pre st.cur then (Sample.mk b 1 0 :: st.pre, st.obs + 1)
           else (st.pre, st.obs)
  let w := walkCursor b st.rank p.1 st.cur st.post
  let q := if w.post = [] then ([Sample.mk b 1 0], p.2 + 1) else (w.post, p.2)
  let node := Sample.mk b 1 ((Estimator.invariant invs w.rank (q.2 : ℚ) - 1 : ℤ) : ℚ)
  ⟨q.2 + 1, w.rank, w.pre, w.cur, node :: q.1⟩

/-- The `for b in self._buffer` loop of `_replace_batch`. -/
def replaceBatchLoop (invs : List Quantile) (bs : List ℚ) (st : InsState) : InsState :=
  bs.foldl (insertOne invs) st

/-- Method `Estimator._replace_batch`. -/
def Estimator.replace_batch (e : Estimator) : Estimator :=
  match e.chain with
  | [] =>
    match e.buffer with
    | [] => e
    | b0 :: rest =>
      -- self._head = self._record(self._buffer[0], 1, 0, None); buffer = buffer[1:]
      let st := replaceBatchLoop e.invariants rest
        ⟨e.observations + 1, 0, [], Sample.mk b0 1 0, []⟩
      { e with buffer := rest, chain := chainOf st, observations := st.obs }
  | h :: t =>
    let st := replaceBatchLoop e.invariants e.buffer ⟨e.observations, 0, [], h, t⟩
    { e with chain := chainOf st, observations := st.obs }

/-- The `while current and current._successor` loop of `_compress`.  On a
merge the successor is absorbed into the current node (taking the successor's
value and uncertainty, summing rank widths) and the walk moves past the
merged node, exactly as `rank += current._rank; current = current._successor`
does after the in-place merge. -/
def compressLoop (invs : List Quantile) (n : ℚ) : ℚ → List Sample → List Sample
  | _rank, [] => []
  | _rank, [c] => [c]
  | rank, c :: s :: rest =>
    if c.rank + s.rank + s.delta ≤ ((Estimator.invariant invs rank n : ℤ) : ℚ) then
      let c' := Sample.mk s.value (c.rank + s.rank) s.delta
      c' :: compressLoop invs n (rank + c'.rank) rest
    else
      c :: compressLoop invs n (rank + c.rank) (s :: rest)

/-- Method `Estimator._compress`. -/
def Estimator.compress (e : Estimator) : Estimator :=
  { e with chain := compressLoop e.invariants (e.observations : ℚ) 0 e.chain }

/-- Method `Estimator._flush`: sort the buffer, merge it in, clear it, compress.
`self._buffer.sort()` is a stable ascending sort, modelled by
`List.insertionSort (· ≤ ·)`. -/
def Estimator.flush (e : Estimator) : Estimator :=
  let e := { e with buffer := e.buffer.insertionSort (· ≤ ·) }
  let e := e.replace_batch
  let e := { e with buffer := ([] : List ℚ) }
  e.compress

/-- Method `Estimator.observe`. -/
def Estimator.observe (e : Estimator) (value : ℚ) : Estimator :=
  let e := { e with buffer := e.buffer ++ [value] }
  if e.buffer.length = BUFFER_SIZE then e.flush else e

/-- Loop `while current._successor: current = current._successor` (rank 1.0). -/
def queryLast : Sample → List Sample → ℚ
  | cur, [] => cur.value
  | _, nxt :: rest => queryLast nxt rest

/-- The final walk of `Estimator.query`. -/
def queryLoop (maxRank : ℤ) : ℚ → Sample → List Sample → ℚ
  | _rank, cur, [] => cur.value
  | rank, cur, nxt :: rest =>
    let rank' := rank + cur.rank
    if rank' + nxt.rank + nxt.delta > (maxRank : ℚ) then cur.value
    else queryLoop maxRank rank' nxt rest

/-- Method `Estimator.query`: flushes, then answers.  The NaN returned on an empty
estimator is modelled as `none`; since `query` mutates (through the flush),
the updated estimator is returned alongside the answer. -/
def Estimator.query (e : Estimator) (rank : ℚ) : Option ℚ × Estimator :=
  let e := e.flush
  match e.chain with
  | [] => (none, e)
  | cur :: rest =>
    if rank = 0 then (some cur.value, e)
    else if rank = 1 then (some (queryLast cur rest), e)
    else
      let midRank : ℤ := ⌊rank * (e.observations : ℚ)⌋
      let maxRank : ℤ := midRank +
        ⌈((Estimator.invariant e.invariants (midRank : ℚ) (e.observations : ℚ) : ℤ) : ℚ) / 2⌉
      (some (queryLoop maxRank 0 cur rest), e)

/-- Feed a list of values through `observe`, starting from a fresh
estimator with the given targets. -/
def runObserves (invariants : List (ℚ × ℚ)) (values : List ℚ) : Estimator :=
  values.foldl Estimator.observe (Estimator.init invariants)

/-- The `TimeWindowEstimator` state.  `observations`/`sum` are the wrapper's
`_observations` and `_sum` counters; wall-clock time is passed explicitly
(integer milliseconds, as produced by `time_ms`). -/
structure TimeWindowEstimator where
  invariants : List (ℚ × ℚ)
  max_age_seconds : ℕ
  age_buckets : ℕ
  ring_buckets : List Estimator
  current_bucket : ℕ
  last_rotate_time_ms : ℤ
  duration_between_rotates_ms : ℤ
  observations : ℕ
  sum : ℚ
deriving DecidableEq, Repr

/-- Method `TimeWindowEstimator.get_new_bucket`. -/
def TimeWindowEstimator.get_new_bucket (s : TimeWindowEstimator) : Estimator :=
  Estimator.init s.invariants

/-- Constructor `TimeWindowEstimator.__init__` (defaults: `max_age_seconds=600`,
`age_buckets=5`); `now` is the construction-time `time_ms()`.
`duration_between_rotates_ms = max_age_seconds * 1000 // age_buckets`. -/
def TimeWindowEstimator.init (invariants : List (ℚ × ℚ))
    (max_age_seconds age_buckets : ℕ) (now : ℤ) : TimeWindowEstimator :=
  { invariants := invariants
    max_age_seconds := max_age_seconds
    age_buckets := age_buckets
    ring_buckets := List.replicate age_buckets (Estimator.init invariants)
    current_bucket := 0
    last_rotate_time_ms := now
    duration_between_rotates_ms := (max_age_seconds * 1000 / age_buckets : ℕ)
    observations := 0
    sum := 0 }

/-- One iteration of the `while` loop in `rotate_buckets`: replace the
current bucket by a fresh estimator, advance the index (wrapping to 0 at
`age_buckets`), advance `last_rotate_time_ms` by one rotation period. -/
def TimeWindowEstimator.rotate_step (s : TimeWindowEstimator) : TimeWindowEstimator :=
  let ring := s.ring_buckets.set s.current_bucket s.get_new_bucket
  let c := s.current_bucket + 1
  { s with ring_buckets := ring
           current_bucket := if s.age_buckets ≤ c then 0 else c
           last_rotate_time_ms := s.last_rotate_time_ms + s.duration_between_rotates_ms }

/-- The `while time_since_last_rotate_ms > self.duration_between_rotates_ms`
loop, fuel-based (each iteration subtracts one positive period from `t`, so
`t.toNat` bounds the iteration count whenever the period is positive). -/
def TimeWindowEstimator.rotate_loop : ℕ → ℤ → TimeWindowEstimator → TimeWindowEstimator
  | 0, _, s => s
  | fuel + 1, t, s =>
    if s.duration_between_rotates_ms < t then
      TimeWindowEstimator.rotate_loop fuel (t - s.duration_between_rotates_ms) s.rotate_step
    else s

/-- Method `TimeWindowEstimator.rotate_buckets`, at wall-clock instant `now`. -/
def TimeWindowEstimator.rotate_buckets (s : TimeWindowEstimator) (now : ℤ) : TimeWindowEstimator :=
  TimeWindowEstimator.rotate_loop (now - s.last_rotate_time_ms).toNat
    (now - s.last_rotate_time_ms) s

/-- The body of `TimeWindowEstimator.observe` after the rotation: feed the
value to every bucket and bump the wrapper counters. -/
def TimeWindowEstimator.record_all (s : TimeWindowEstimator) (value : ℚ) : TimeWindowEstimator :=
  { s with ring_buckets := s.ring_buckets.map fun bucket => bucket.observe value
           observations := s.observations + 1
           sum := s.sum + value }

/-- Method `TimeWindowEstimator.observe`: rotate overdue buckets first, then record. -/
def TimeWindowEstimator.observe (s : TimeWindowEstimator) (now : ℤ) (value : ℚ) :
    TimeWindowEstimator :=
  (s.rotate_buckets now).record_all value

/-- Method `TimeWindowEstimator.query`: rotate overdue buckets first, then delegate
to the bucket at `current_bucket` (whose internal flush mutates it). -/
def TimeWindowEstimator.query (s : TimeWindowEstimator) (now : ℤ) (rank : ℚ) :
    Option ℚ × TimeWindowEstimator :=
  let s := s.rotate_buckets now
  let r := (s.ring_buckets.getD s.current_bucket (Estimator.init s.invariants)).query rank
  (r.1, { s with ring_buckets := s.ring_buckets.set s.current_bucket r.2 })

/-- Sum of the rank widths (`_rank`) over a chain. -/
def sumRank (l : List Sample) : ℚ :=
  (l.map Sample.rank).sum

/-- The values stored along a chain, in chain order. -/
def chainValues (l : List Sample) : List ℚ :=
  l.map Sample.value

/-- The value of the last node of a chain (`none` for the empty chain). -/
def lastValue (l : List Sample) : Option ℚ :=
  l.getLast?.map Sample.value

end QE

namespace QE

/-! ## Claims -/

set_option maxRecDepth 40000 in
unseal Rat.add Rat.mul Rat.inv Rat.sub in
/-- Claim C1 (divergence evaluation). The claim states that for every observed
sequence of `N` values and registered target `(q, ε)`, `query(q)` lies
between `sorted[⌊q·N − ε·N⌋]` and `sorted[min(⌈q·N + ε·N⌉, N−1)]`.  The code
violates it: with the default targets (which register `(1/2, 1/100)`),
observing `10, 20, 30`, querying `0.5` (which flushes), then observing
`1, 2, 3, 4` and querying `0.5` again returns `1`, although `N = 7`,
`⌊q·N − ε·N⌋ = ⌊3.43⌋ = 3` and `sorted[3] = 4`, so the claim requires a
result of at least `4`. -/
theorem claim_C1_divergence :
    (let e := runObserves [] [10, 20, 30]
     let q1 := e.query (1/2)
     let e2 := (((q1.2.observe 1).observe 2).observe 3).observe 4
     (e2.query (1/2)).1) = some 1
    ∧ List.insertionSort (· ≤ ·) ([10, 20, 30, 1, 2, 3, 4] : List ℚ)
        = [1, 2, 3, 4, 10, 20, 30]
    ∧ (⌊(1/2 : ℚ) * 7 - (1/100) * 7⌋ : ℤ) = 3 := by
  decide

set_option maxRecDepth 40000 in
unseal Rat.add Rat.mul Rat.inv Rat.sub in
/-- Claim C2 (divergence evaluation). The claim states that `query(1.0)` always
returns the maximum value ever observed.  The code violates it: with the
default targets, after `observe(5); query(1.0); observe(3); query(1.0)` the
second `query(1.0)` returns `3`, although the maximum value ever observed is
`5` (the first query returns `5`).  The second flush inserts `3` twice after
the tail node `5`, so the last chain node holds `3`. -/
theorem claim_C2_divergence :
    (let e := runObserves [] [5]
     let q1 := e.query 1
     let q2 := (q1.2.observe 3).query 1
     (q1.1, q2.1)) = (some 5, some 3) := by
  decide

set_option maxRecDepth 40000 in
unseal Rat.add Rat.mul Rat.inv Rat.sub in
/-- Claim C4 (divergence evaluation). The claim states that after every flush
the chain is strictly ordered by ascending value.  The code violates it:
with the default targets, after `observe(5); query(·); observe(3); query(·)`
(each query triggers a flush), the chain's values are `[3, 5, 3, 3]`, which
is not sorted at all — `_replace_batch` inserts a value smaller than the
head three times: once as the new head, once after the old tail, and once
more after the cursor. -/
theorem claim_C4_divergence :
    (let e := runObserves [] [5]
     let q1 := e.query 1
     let q2 := (q1.2.observe 3).query 1
     chainValues q2.2.chain) = [3, 5, 3, 3]
    ∧ ¬ List.Sorted (· < ·)
        (let e := runObserves [] [5]
         let q1 := e.query 1
         let q2 := (q1.2.observe 3).query 1
         chainValues q2.2.chain) := by
  decide

set_option maxRecDepth 40000 in
unseal Rat.add Rat.mul Rat.inv Rat.sub in
/-- Claim C3 (counterexample). The claim states that during a flush's insertion
step a pending value `b` not smaller than the head's value causes *exactly
one* node to be inserted, so `totalObserved` increases by exactly one for
that value.  On the chain `[⟨3, 1, 0⟩]` with pending buffer `[5]` (for which
`b = 5` is not smaller than the head value `3`), `_replace_batch` raises
`_observations` from `1` to `3` and yields a three-node chain: when the
cursor has no successor the code inserts an extra tail node `⟨b, 1, 0⟩`
before the regular post-cursor node. -/
theorem claim_C3_counterexample :
    (Estimator.replace_batch
        { invariants := defaultInvariants, buffer := [5],
          chain := [Sample.mk 3 1 0], observations := 1 }).observations = 3
    ∧ chainValues (Estimator.replace_batch
        { invariants := defaultInvariants, buffer := [5],
          chain := [Sample.mk 3 1 0], observations := 1 }).chain = [3, 5, 5] := by
  decide

/-- Claim C3 (amended). During a flush's insertion step, a pending value `b`
that is not smaller than the current head's value causes one new node
`⟨b, rankWidth 1, uncertainty invariant(runningRank, totalObserved) − 1⟩`
to be inserted immediately after the cursor when the cursor still has a
successor, so `totalObserved` increases by one; when the cursor has reached
the last node, an additional tail node `⟨b, rankWidth 1, uncertainty 0⟩` is
inserted first (and the regular node's uncertainty is computed against the
already incremented counter), so `totalObserved` increases by two for that
value. Stated for a flush batch containing the single value `b`. -/
theorem claim_C3_amended (invs : List Quantile) (st : InsState) (b : ℚ)
    (hb : ¬ b < headVal st.pre st.cur) :
    insertOne invs st b =
      if (walkCursor b st.rank st.pre st.cur st.post).post = [] then
        ⟨st.obs + 2, (walkCursor b st.rank st.pre st.cur st.post).rank,
          (walkCursor b st.rank st.pre st.cur st.post).pre,
          (walkCursor b st.rank st.pre st.cur st.post).cur,
          Sample.mk b 1
            ((Estimator.invariant invs (walkCursor b st.rank st.pre st.cur st.post).rank
              ((st.obs + 1 : ℕ) : ℚ) - 1 : ℤ) : ℚ) :: [Sample.mk b 1 0]⟩
      else
        ⟨st.obs + 1, (walkCursor b st.rank st.pre st.cur st.post).rank,
          (walkCursor b st.rank st.pre st.cur st.post).pre,
          (walkCursor b st.rank st.pre st.cur st.post).cur,
          Sample.mk b 1
            ((Estimator.invariant invs (walkCursor b st.rank st.pre st.cur st.post).rank
              ((st.obs : ℕ) : ℚ) - 1 : ℤ) : ℚ) ::
          (walkCursor b st.rank st.pre st.cur st.post).post⟩ := by
  rw [insertOne]
  simp only [if_neg hb]
  by_cases h : (walkCursor b st.rank st.pre st.cur st.post).post = [] <;>
    simp [h]

unseal Rat.add Rat.mul Rat.inv Rat.sub in
/-- Witness for the C3 amended theorem: on the chain `[⟨3, 1, 0⟩]` with
pending value `5` (cursor reaches the tail), the insertion step creates two
nodes and raises the counter from `1` to `3`. -/
theorem claim_C3_amended_witness :
    ¬ (5 : ℚ) < headVal (InsState.mk 1 0 [] (Sample.mk 3 1 0) []).pre
        (InsState.mk 1 0 [] (Sample.mk 3 1 0) []).cur
    ∧ insertOne defaultInvariants (InsState.mk 1 0 [] (Sample.mk 3 1 0) []) 5 =
        ⟨3, 0, [], Sample.mk 3 1 0,
          [Sample.mk 5 1 (-1), Sample.mk 5 1 0]⟩ := by
  refine ⟨by decide, ?_⟩
  have h := claim_C3_amended defaultInvariants (InsState.mk 1 0 [] (Sample.mk 3 1 0) []) 5
    (by decide)
  rw [h]
  decide

/-- Claim C7 (amended). Construction with a quantile/epsilon pair outside
`[0, 1]` is not rejected: `_Quantile` accepts any pair and computes
`coefficient_i = 2ε/(1−q)` for every `q ≠ 1` and `coefficient_ii = 2ε/q`
for every `q ≠ 0` (out-of-range pairs included, which is how undefined
numeric behavior propagates to later operations); only `q = 1` or `q = 0`
produce NaN coefficients. -/
theorem claim_C7_amended (q ε : ℚ) :
    (Estimator.init [(q, ε)]).invariants = [Quantile.init q ε]
    ∧ (q ≠ 1 → (Quantile.init q ε).coefficient_i = some (2 * ε / (1 - q)))
    ∧ (q ≠ 0 → (Quantile.init q ε).coefficient_ii = some (2 * ε / q)) := by
  refine ⟨rfl, fun h1 => ?_, fun h0 => ?_⟩
  · simp [Quantile.init, h1]
  · simp [Quantile.init, h0]

/-- Witness for the C7 amended theorem at the out-of-range quantile `5/2`. -/
theorem claim_C7_amended_witness :
    (Estimator.init [(5/2, 1/50)]).invariants = [Quantile.init (5/2) (1/50)]
    ∧ (Quantile.init (5/2) (1/50)).coefficient_i = some (2 * (1/50) / (1 - 5/2))
    ∧ (Quantile.init (5/2) (1/50)).coefficient_ii = some (2 * (1/50) / (5/2)) :=
  ⟨(claim_C7_amended (5/2) (1/50)).1,
   (claim_C7_amended (5/2) (1/50)).2.1 (by norm_num),
   (claim_C7_amended (5/2) (1/50)).2.2 (by norm_num)⟩

set_option maxRecDepth 1000000 in
unseal Rat.add Rat.mul Rat.inv Rat.sub in
/-- Claim C8 (counterexample). The claim states that repeated `query(rank)`
with no intervening `observe` always returns the same value.  The code
violates it: with the default targets, observe `1, 2, …, 38`, then call
`query(0.0)` twice; the first call returns `2` and the second returns `3`.
Every `query` reruns `_flush` and thus one `_compress` pass, and each pass
can merge once more at the head, overwriting the head's value with its
successor's. -/
theorem claim_C8_counterexample :
    (let e := runObserves [] ((List.range 38).map fun k => (k : ℚ) + 1)
     let q1 := e.query 0
     let q2 := q1.2.query 0
     (q1.1, q2.1)) = (some 2, some 3) := by
  decide

/-- A chain `a :: l` ends in `a` when `l` is empty, and in `l`'s last value
otherwise. -/
theorem lastValue_cons (a : Sample) (l : List Sample) :
    lastValue (a :: l) = if l = [] then some a.value else lastValue l := by
  cases l with
  | nil => simp [lastValue]
  | cons b t => simp [lastValue]

/-- A compression pass never empties a nonempty chain. -/
theorem compressLoop_ne_nil (invs : List Quantile) (n : ℚ) :
    ∀ (rank : ℚ) (l : List Sample), l ≠ [] → compressLoop invs n rank l ≠ []
  | _rank, [], h => absurd rfl h
  | _rank, [c], _h => by simp [compressLoop]
  | rank, c :: s :: rest, _h => by
    rw [compressLoop]
    split <;> simp

/-- A compression pass preserves the last value of the chain: a merge copies
the absorbed successor's value into its predecessor, so the value stored in
the final node survives every merge. -/
theorem compressLoop_lastValue (invs : List Quantile) (n : ℚ) :
    ∀ (rank : ℚ) (l : List Sample),
      lastValue (compressLoop invs n rank l) = lastValue l
  | _rank, [] => rfl
  | _rank, [c] => rfl
  | rank, c :: s :: rest => by
    rw [compressLoop]
    split
    · cases rest with
      | nil => simp [compressLoop, lastValue]
      | cons r rs =>
        rw [lastValue_cons]
        rw [if_neg (compressLoop_ne_nil invs n _ _ (by simp))]
        rw [compressLoop_lastValue invs n _ (r :: rs)]
        simp [lastValue]
    · rw [lastValue_cons]
      rw [if_neg (compressLoop_ne_nil invs n _ _ (by simp))]
      rw [compressLoop_lastValue invs n _ (s :: rest)]
      simp [lastValue]

/-- Method `_flush` always leaves an empty pending buffer. -/
theorem flush_buffer (e : Estimator) : e.flush.buffer = [] := rfl

/-- Method `query` returns the flushed estimator as the post-state. -/
theorem query_snd (e : Estimator) (rank : ℚ) : (e.query rank).2 = e.flush := by
  rw [Estimator.query]
  cases h : e.flush.chain with
  | nil => rfl
  | cons cur rest =>
    by_cases h0 : rank = 0
    · simp [h0]
    · by_cases h1 : rank = 1 <;> simp [h0, h1]

/-- The `rank == 1.0` walk returns the last node's value. -/
theorem queryLast_lastValue :
    ∀ (cur : Sample) (rest : List Sample),
      some (queryLast cur rest) = lastValue (cur :: rest)
  | _cur, [] => rfl
  | _cur, nxt :: rest => by
    rw [queryLast, lastValue_cons, if_neg (by simp)]
    exact queryLast_lastValue nxt rest

/-- Querying rank 1 answers with the last value of the flushed chain. -/
theorem query_one_fst (e : Estimator) :
    (e.query 1).1 = lastValue e.flush.chain := by
  rw [Estimator.query]
  cases h : e.flush.chain with
  | nil => simp [lastValue]
  | cons cur rest =>
    dsimp only
    rw [if_neg (by norm_num : ¬(1 : ℚ) = 0), if_pos rfl]
    exact queryLast_lastValue cur rest

/-- Method `_replace_batch` is the identity when the pending buffer is empty. -/
theorem replace_batch_of_buffer_nil (e : Estimator) (h : e.buffer = []) :
    e.replace_batch = e := by
  obtain ⟨invs, buf, chain, obs⟩ := e
  subst h
  cases chain with
  | nil => rfl
  | cons hd t => rfl

/-- Method `_flush` on an empty pending buffer just runs one compression pass. -/
theorem flush_of_buffer_nil (e : Estimator) (h : e.buffer = []) :
    e.flush = e.compress := by
  obtain ⟨invs, buf, chain, obs⟩ := e
  cases h
  simp only [Estimator.flush, List.insertionSort]
  rw [replace_batch_of_buffer_nil _ rfl]

/-- Claim C8 (amended). Calling `query(1.0)` repeatedly with no intervening
`observe` returns the same value each time (for other ranks consecutive
calls may differ, because every query reruns one compression pass over the
chain — see the counterexample): the second query's flush finds an empty
buffer, and its compression pass preserves the last chain value, which is
what the `rank == 1.0` walk returns. -/
theorem claim_C8_amended (e : Estimator) :
    ((e.query 1).2.query 1).1 = (e.query 1).1 := by
  rw [query_snd e 1, query_one_fst, query_one_fst e,
    flush_of_buffer_nil _ (flush_buffer e)]
  exact compressLoop_lastValue _ _ _ _

unseal Rat.add Rat.mul Rat.inv Rat.sub in
/-- Claim C7 (counterexample). The claim states that constructing an estimator
with a quantile/epsilon pair outside `[0, 1]` is rejected at construction
time with a descriptive error.  Neither `Estimator.__init__` nor
`_Quantile.__init__` validates anything: construction with the out-of-range
pair `(3/2, 1/100)` succeeds and installs the target, computing the
out-of-range coefficient `coefficient_i = 2·(1/100)/(1 − 3/2) = −1/25 < 0`
by the usual formulas. -/
theorem claim_C7_counterexample :
    (Estimator.init [(3/2, 1/100)]).invariants =
      [{ quantile := 3/2, inaccuracy := 1/100,
         coefficient_i := some (-(1/25)), coefficient_ii := some (1/75) }] := by
  decide

/-- The sequential `if delta < minimum: minimum = delta` fold of
`_invariant`, in which a NaN delta never updates the minimum, computes the
same value as taking the minimum of the non-NaN deltas. -/
theorem invariant_foldl_min (invs : List Quantile) (rank n : ℚ) : ∀ init : ℚ,
    invs.foldl
        (fun minimum i =>
          match i.delta rank n with
          | none => minimum
          | some d => if d < minimum then d else minimum) init
      = (invs.filterMap fun i => i.delta rank n).foldl min init := by
  induction invs with
  | nil => intro init; rfl
  | cons i t ih =>
    intro init
    cases h : i.delta rank n with
    | none => simp [h, ih]
    | some d =>
      have hmin : (if d < init then d else init) = min init d := by
        rw [min_def]
        split_ifs <;> linarith
      simp [h, ih, hmin]

/-- Claim C6. For every target and every `rank`, `n`: `delta(rank, n)` is
`coeffLow · (n − rank)` on the branch `rank ≤ ⌊quantile · n⌋` and
`coeffHigh · rank` otherwise, NaN (`none`) exactly when the used coefficient
is undefined (quantile 1 on the low branch, quantile 0 on the high branch);
and `invariant(rank, n)` is the floor of the minimum of the targets'
deltas starting from the initial minimum `n + 1`, NaN deltas never lowering
the minimum and never raising an error. -/
theorem claim_C6 (q ε rank n : ℚ) (invs : List Quantile) :
    (Quantile.init q ε).delta rank n =
      (if rank ≤ (⌊q * n⌋ : ℚ) then
        (if q = 1 then none else some ((2 * ε) / (1 - q) * (n - rank)))
      else
        (if q = 0 then none else some (2 * ε / q * rank)))
    ∧ Estimator.invariant invs rank n =
        ⌊(invs.filterMap fun i => i.delta rank n).foldl min (n + 1)⌋ := by
  constructor
  · by_cases h1 : q = 1 <;> by_cases h0 : q = 0 <;>
      simp [Quantile.delta, Quantile.init, h1, h0]
  · rw [Estimator.invariant, invariant_foldl_min]

/-- Additivity: `sumRank` distributes over append. -/
theorem sumRank_append (l1 l2 : List Sample) :
    sumRank (l1 ++ l2) = sumRank l1 + sumRank l2 := by
  simp [sumRank]

/-- Unfolding `sumRank` on a cons. -/
theorem sumRank_cons (a : Sample) (l : List Sample) :
    sumRank (a :: l) = a.rank + sumRank l := by
  simp [sumRank]

/-- The cursor walk only repositions the zipper: the represented chain
`pre ++ cur :: post` is unchanged. -/
theorem walkCursor_join (b : ℚ) :
    ∀ (rank : ℚ) (pre : List Sample) (cur : Sample) (post : List Sample),
      (walkCursor b rank pre cur post).pre ++
          (walkCursor b rank pre cur post).cur :: (walkCursor b rank pre cur post).post
        = pre ++ cur :: post
  | _rank, pre, cur, [] => by simp [walkCursor]
  | rank, pre, cur, nxt :: rest => by
    rw [walkCursor]
    split
    · rw [walkCursor_join b _ (pre ++ [cur]) nxt rest]
      simp
    · rfl

/-- One iteration of the `_replace_batch` loop adds exactly as much total
rank width to the chain as it adds to `_observations`: every `_record` call
increments the counter by one and links a node of rank width one. -/
theorem insertOne_sum (invs : List Quantile) (st : InsState) (b : ℚ) :
    sumRank (chainOf (insertOne invs st b)) + (st.obs : ℚ)
      = sumRank (chainOf st) + ((insertOne invs st b).obs : ℚ) := by
  obtain ⟨obs, rank, pre, cur, post⟩ := st
  simp only [insertOne]
  by_cases hb : b < headVal pre cur
  · simp only [if_pos hb]
    have hs := congrArg sumRank (walkCursor_join b rank (Sample.mk b 1 0 :: pre) cur post)
    by_cases hp : (walkCursor b rank (Sample.mk b 1 0 :: pre) cur post).post = []
    · rw [hp] at hs
      simp only [if_pos hp, chainOf]
      simp only [sumRank_append, sumRank_cons, sumRank, List.map_nil, List.sum_nil,
        List.map_cons, List.sum_cons, List.map_append, List.sum_append] at hs ⊢
      push_cast
      linarith
    · simp only [if_neg hp, chainOf]
      simp only [sumRank_append, sumRank_cons, sumRank, List.map_nil, List.sum_nil,
        List.map_cons, List.sum_cons, List.map_append, List.sum_append] at hs ⊢
      push_cast
      linarith
  · simp only [if_neg hb]
    have hs := congrArg sumRank (walkCursor_join b rank pre cur post)
    by_cases hp : (walkCursor b rank pre cur post).post = []
    · rw [hp] at hs
      simp only [if_pos hp, chainOf]
      simp only [sumRank_append, sumRank_cons, sumRank, List.map_nil, List.sum_nil,
        List.map_cons, List.sum_cons, List.map_append, List.sum_append] at hs ⊢
      push_cast
      linarith
    · simp only [if_neg hp, chainOf]
      simp only [sumRank_append, sumRank_cons, sumRank, List.map_nil, List.sum_nil,
        List.map_cons, List.sum_cons, List.map_append, List.sum_append] at hs ⊢
      push_cast
      linarith

/-- The full `_replace_batch` loop adds exactly as much total rank width to
the chain as it adds to `_observations`. -/
theorem replaceBatchLoop_sum (invs : List Quantile) :
    ∀ (bs : List ℚ) (st : InsState),
      sumRank (chainOf (replaceBatchLoop invs bs st)) + (st.obs : ℚ)
        = sumRank (chainOf st) + ((replaceBatchLoop invs bs st).obs : ℚ)
  | [], _st => by simp [replaceBatchLoop]
  | b :: bs, st => by
    have h1 := insertOne_sum invs st b
    have h2 := replaceBatchLoop_sum invs bs (insertOne invs st b)
    simp only [replaceBatchLoop, List.foldl_cons] at h2 ⊢
    linarith


/-- A compression pass conserves the total rank width: a merge adds the
absorbed node's rank width to its predecessor's. -/
theorem compressLoop_sum (invs : List Quantile) (n : ℚ) :
    ∀ (rank : ℚ) (l : List Sample), sumRank (compressLoop invs n rank l) = sumRank l
  | _rank, [] => rfl
  | _rank, [_c] => rfl
  | rank, c :: s :: rest => by
    rw [compressLoop]
    split
    · dsimp only
      rw [sumRank_cons, compressLoop_sum invs n _ rest]
      simp only [sumRank_cons]
      ring
    · rw [sumRank_cons, compressLoop_sum invs n _ (s :: rest)]
      simp only [sumRank_cons]

/-- Claim C5. Immediately after every flush (and in fact at every point at
which the last flush has completed), the sum of the rank widths over the
chain equals `_observations`: assuming the invariant held before the flush,
it holds after it.  Every `_record` call adds one rank-width-one node and
increments the counter, and compression conserves the total rank width. -/
theorem claim_C5 (e : Estimator) (h : sumRank e.chain = (e.observations : ℚ)) :
    sumRank e.flush.chain = (e.flush.observations : ℚ) := by
  obtain ⟨invs, buf, chain, obs⟩ := e
  simp only [Estimator.flush, Estimator.compress]
  rw [compressLoop_sum]
  simp only [Estimator.replace_batch]
  dsimp only at h
  cases chain with
  | nil =>
    cases hbuf : buf.insertionSort (· ≤ ·) with
    | nil => simpa using h
    | cons b0 rest =>
      dsimp only
      have hsum := replaceBatchLoop_sum invs rest ⟨obs + 1, 0, [], Sample.mk b0 1 0, []⟩
      simp only [chainOf, List.nil_append, sumRank_cons, sumRank, List.map_nil,
        List.sum_nil, List.map_cons, List.sum_cons, List.map_append,
        List.sum_append] at hsum ⊢
      simp only [sumRank, List.map_nil, List.sum_nil] at h
      push_cast at hsum ⊢
      linarith
  | cons hd t =>
    dsimp only
    have hsum := replaceBatchLoop_sum invs (buf.insertionSort (· ≤ ·)) ⟨obs, 0, [], hd, t⟩
    simp only [chainOf, List.nil_append] at hsum ⊢
    simp only [sumRank, List.map_cons, List.sum_cons, List.map_append,
      List.sum_append] at h hsum ⊢
    linarith

unseal Rat.add Rat.mul Rat.inv Rat.sub in
/-- Witness for C5: a fresh default estimator with pending values `[5, 3]`
satisfies the invariant before the flush (empty chain, zero counter), and
after flushing the chain's rank widths again sum to `_observations`. -/
theorem claim_C5_witness :
    sumRank (Estimator.mk defaultInvariants [5, 3] [] 0).chain
        = ((Estimator.mk defaultInvariants [5, 3] [] 0).observations : ℚ)
    ∧ sumRank (Estimator.mk defaultInvariants [5, 3] [] 0).flush.chain
        = ((Estimator.mk defaultInvariants [5, 3] [] 0).flush.observations : ℚ) :=
  ⟨by simp [sumRank], claim_C5 _ (by simp [sumRank])⟩


/-- Pure bookkeeping about values after a mid-chain insertion: the values of
`wpre ++ wcur :: node :: wpost` are `node`'s value plus the values of the
joined chain, and similarly for the tail-insertion shape. -/
theorem mem_values_insert (wpre : List Sample) (wcur : Sample) (wpost C : List Sample)
    (hj : wpre ++ wcur :: wpost = C) (node tl : Sample) :
    (∀ x ∈ chainValues (wpre ++ wcur :: node :: wpost),
      x = node.value ∨ x ∈ chainValues C)
    ∧ (wpost = [] → ∀ x ∈ chainValues (wpre ++ wcur :: [node, tl]),
        x = node.value ∨ x = tl.value ∨ x ∈ chainValues C) := by
  subst hj
  constructor
  · intro x hx
    simp only [chainValues, List.map_append, List.map_cons, List.mem_append,
      List.mem_cons] at hx ⊢
    tauto
  · rintro rfl x hx
    simp only [chainValues, List.map_append, List.map_cons, List.map_nil,
      List.mem_append, List.mem_cons, List.not_mem_nil] at hx ⊢
    tauto

/-- Unfolding `chainValues` on a cons. -/
theorem chainValues_cons (a : Sample) (l : List Sample) :
    chainValues (a :: l) = a.value :: chainValues l := rfl

/-- Every value on the chain after one `_replace_batch` loop iteration is
either the inserted pending value `b` or a value that was already on the
chain. -/
theorem insertOne_values (invs : List Quantile) (st : InsState) (b : ℚ) :
    ∀ x ∈ chainValues (chainOf (insertOne invs st b)),
      x = b ∨ x ∈ chainValues (chainOf st) := by
  obtain ⟨obs, rank, pre, cur, post⟩ := st
  intro x hx
  simp only [insertOne] at hx
  have hhead : ∀ y, y ∈ chainValues (Sample.mk b 1 0 :: pre ++ cur :: post) →
      y = b ∨ y ∈ chainValues (chainOf ⟨obs, rank, pre, cur, post⟩) := by
    intro y hy
    simp only [chainOf, chainValues, List.map_append, List.map_cons, List.mem_append,
      List.mem_cons] at hy ⊢
    tauto
  by_cases hb : b < headVal pre cur
  · simp only [if_pos hb] at hx
    have hj := walkCursor_join b rank (Sample.mk b 1 0 :: pre) cur post
    by_cases hp : (walkCursor b rank (Sample.mk b 1 0 :: pre) cur post).post = []
    · rw [hp] at hj
      simp only [if_pos hp, chainOf] at hx
      have h2 := (mem_values_insert _ _ _ _ hj _ _).2 rfl x hx
      rcases h2 with h2 | h2 | h2
      · exact Or.inl h2
      · exact Or.inl h2
      · exact hhead x h2
    · simp only [if_neg hp, chainOf] at hx
      have h2 := (mem_values_insert _ _ _ _ hj _ (Sample.mk b 1 0)).1 x hx
      rcases h2 with h2 | h2
      · exact Or.inl h2
      · exact hhead x h2
  · simp only [if_neg hb] at hx
    have hj := walkCursor_join b rank pre cur post
    by_cases hp : (walkCursor b rank pre cur post).post = []
    · rw [hp] at hj
      simp only [if_pos hp, chainOf] at hx
      have h2 := (mem_values_insert _ _ _ _ hj _ _).2 rfl x hx
      rcases h2 with h2 | h2 | h2
      · exact Or.inl h2
      · exact Or.inl h2
      · exact Or.inr h2
    · simp only [if_neg hp, chainOf] at hx
      have h2 := (mem_values_insert _ _ _ _ hj _ (Sample.mk b 1 0)).1 x hx
      rcases h2 with h2 | h2
      · exact Or.inl h2
      · exact Or.inr h2

/-- Every value on the chain after the whole `_replace_batch` loop was
pending in the processed batch or already on the chain. -/
theorem replaceBatchLoop_values (invs : List Quantile) :
    ∀ (bs : List ℚ) (st : InsState),
      ∀ x ∈ chainValues (chainOf (replaceBatchLoop invs bs st)),
        x ∈ bs ∨ x ∈ chainValues (chainOf st)
  | [], _st => by simp [replaceBatchLoop]
  | b :: bs, st => by
    intro x hx
    simp only [replaceBatchLoop, List.foldl_cons] at hx
    have h2 := replaceBatchLoop_values invs bs (insertOne invs st b) x hx
    rcases h2 with h2 | h2
    · exact Or.inl (List.mem_cons_of_mem _ h2)
    · rcases insertOne_values invs st b x h2 with h3 | h3
      · exact Or.inl (h3 ▸ List.mem_cons_self _ _)
      · exact Or.inr h3

/-- Compression only keeps values that were already on the chain (a merge
copies the absorbed successor's value). -/
theorem compressLoop_values (invs : List Quantile) (n : ℚ) :
    ∀ (rank : ℚ) (l : List Sample),
      ∀ x ∈ chainValues (compressLoop invs n rank l), x ∈ chainValues l
  | _rank, [] => by simp [compressLoop]
  | _rank, [c] => by simp [compressLoop]
  | rank, c :: s :: rest => by
    intro x hx
    rw [compressLoop] at hx
    split at hx
    · dsimp only at hx
      rw [chainValues_cons, List.mem_cons] at hx
      rw [chainValues_cons, chainValues_cons, List.mem_cons, List.mem_cons]
      rcases hx with hx | hx
      · exact Or.inr (Or.inl hx)
      · exact Or.inr (Or.inr (compressLoop_values invs n _ rest x hx))
    · rw [chainValues_cons, List.mem_cons] at hx
      rw [chainValues_cons, List.mem_cons]
      rcases hx with hx | hx
      · exact Or.inl hx
      · exact Or.inr (compressLoop_values invs n _ (s :: rest) x hx)

/-- Every value on the chain after a flush was pending or already on the
chain before the flush. -/
theorem flush_values (e : Estimator) :
    ∀ x ∈ chainValues e.flush.chain, x ∈ e.buffer ∨ x ∈ chainValues e.chain := by
  obtain ⟨invs, buf, chain, obs⟩ := e
  have hsort : ∀ y : ℚ, y ∈ buf.insertionSort (· ≤ ·) → y ∈ buf := by
    intro y hy
    exact (List.mem_insertionSort _).mp hy
  intro x hx
  simp only [Estimator.flush, Estimator.compress] at hx
  have hx2 := compressLoop_values _ _ _ _ x hx
  simp only [Estimator.replace_batch] at hx2
  cases chain with
  | nil =>
    cases hbuf : buf.insertionSort (· ≤ ·) with
    | nil =>
      rw [hbuf] at hx2
      exact absurd hx2 (by simp [chainValues])
    | cons b0 rest =>
      rw [hbuf] at hx2
      dsimp only at hx2
      have h3 := replaceBatchLoop_values invs rest _ x hx2
      rcases h3 with h3 | h3
      · exact Or.inl (hsort x (hbuf ▸ List.mem_cons_of_mem _ h3))
      · simp only [chainOf, chainValues, List.nil_append, List.map_cons, List.map_nil,
          List.mem_cons, List.not_mem_nil, or_false] at h3
        exact Or.inl (hsort x (hbuf ▸ (h3 ▸ List.mem_cons_self _ _)))
  | cons hd t =>
    have h3 := replaceBatchLoop_values invs _ _ x hx2
    rcases h3 with h3 | h3
    · exact Or.inl (hsort x h3)
    · right
      simpa [chainOf, chainValues] using h3

/-- A flush of a nonempty estimator (pending values or a nonempty chain)
produces a nonempty chain. -/
theorem flush_chain_ne (e : Estimator) (h : e.buffer ≠ [] ∨ e.chain ≠ []) :
    e.flush.chain ≠ [] := by
  obtain ⟨invs, buf, chain, obs⟩ := e
  simp only [Estimator.flush, Estimator.compress]
  apply compressLoop_ne_nil
  simp only [Estimator.replace_batch]
  cases hchain : chain with
  | nil =>
    cases hbuf : buf.insertionSort (· ≤ ·) with
    | nil =>
      exfalso
      rcases h with h | h
      · exact h (List.eq_nil_of_length_eq_zero
          (by simpa using congrArg List.length hbuf))
      · exact h hchain
    | cons b0 rest => simp [chainOf]
  | cons hd t => simp [chainOf]

/-- After any `observe` the estimator is nonempty: either the value is still
pending, or the triggered flush moved a nonempty buffer into the chain. -/
theorem observe_ne (e : Estimator) (v : ℚ) :
    (e.observe v).buffer ≠ [] ∨ (e.observe v).chain ≠ [] := by
  rw [Estimator.observe]
  by_cases h : (e.buffer ++ [v]).length = BUFFER_SIZE
  · simp only [if_pos h]
    right
    exact flush_chain_ne _ (Or.inl (by simp))
  · simp only [if_neg h]
    left
    simp

/-- Every value reachable in a post-`observe` state (pending or cataloged)
was already reachable before or is the observed value. -/
theorem observe_values (e : Estimator) (v x : ℚ)
    (hx : x ∈ (e.observe v).buffer ∨ x ∈ chainValues (e.observe v).chain) :
    (x ∈ e.buffer ∨ x ∈ chainValues e.chain) ∨ x = v := by
  rw [Estimator.observe] at hx
  by_cases h : (e.buffer ++ [v]).length = BUFFER_SIZE
  · simp only [if_pos h] at hx
    rcases hx with hx | hx
    · rw [flush_buffer] at hx
      simp at hx
    · rcases flush_values _ x hx with h2 | h2
      · simp only [List.mem_append, List.mem_singleton] at h2
        tauto
      · tauto
  · simp only [if_neg h] at hx
    rcases hx with hx | hx
    · simp only [List.mem_append, List.mem_singleton] at hx
      tauto
    · tauto

/-- Running a sequence of observes only accumulates observed values. -/
theorem foldl_observe_values :
    ∀ (vs : List ℚ) (e : Estimator) (S : List ℚ),
      (∀ x, x ∈ e.buffer ∨ x ∈ chainValues e.chain → x ∈ S) →
      (∀ x ∈ vs, x ∈ S) →
      ∀ x, (x ∈ (vs.foldl Estimator.observe e).buffer
            ∨ x ∈ chainValues (vs.foldl Estimator.observe e).chain) → x ∈ S
  | [], _e, _S, he, _hvs => by simpa using he
  | v :: vs, e, S, he, hvs => by
    intro x hx
    simp only [List.foldl_cons] at hx
    refine foldl_observe_values vs (e.observe v) S ?_ (fun y hy => hvs y (List.mem_cons_of_mem _ hy)) x hx
    intro y hy
    rcases observe_values e v y hy with h2 | h2
    · exact he y h2
    · exact h2 ▸ hvs v (List.mem_cons_self _ _)

/-- After a nonempty sequence of observes the estimator is nonempty. -/
theorem foldl_observe_ne :
    ∀ (vs : List ℚ) (e : Estimator), vs ≠ [] →
      (vs.foldl Estimator.observe e).buffer ≠ []
        ∨ (vs.foldl Estimator.observe e).chain ≠ []
  | [], _e, h => absurd rfl h
  | [v], e, _h => by simpa using observe_ne e v
  | v :: v' :: vs, e, _h => by
    simpa using foldl_observe_ne (v' :: vs) (e.observe v) (by simp)

/-- The `query` walk for intermediate ranks answers with a chain value. -/
theorem queryLoop_mem (maxRank : ℤ) :
    ∀ (rank : ℚ) (cur : Sample) (rest : List Sample),
      queryLoop maxRank rank cur rest ∈ chainValues (cur :: rest)
  | _rank, cur, [] => by simp [queryLoop, chainValues]
  | rank, cur, nxt :: rest => by
    rw [queryLoop]
    split
    · simp [chainValues]
    · have h2 := queryLoop_mem maxRank (rank + cur.rank) nxt rest
      simp only [chainValues, List.map_cons, List.mem_cons] at h2 ⊢
      tauto

/-- The `rank == 1.0` walk answers with a chain value. -/
theorem queryLast_mem :
    ∀ (cur : Sample) (rest : List Sample),
      queryLast cur rest ∈ chainValues (cur :: rest)
  | _cur, [] => by simp [queryLast, chainValues]
  | cur, nxt :: rest => by
    rw [queryLast]
    have h2 := queryLast_mem nxt rest
    simp only [chainValues, List.map_cons, List.mem_cons] at h2 ⊢
    tauto

/-- Method `query` returns NaN (`none`) exactly when the post-flush chain is empty,
and otherwise answers with a value stored on the post-flush chain. -/
theorem query_fst_cases (e : Estimator) (rank : ℚ) :
    ((e.query rank).1 = none ↔ e.flush.chain = [])
    ∧ ∀ v, (e.query rank).1 = some v → v ∈ chainValues e.flush.chain := by
  rw [Estimator.query]
  cases h : e.flush.chain with
  | nil => simp
  | cons cur rest =>
    by_cases h0 : rank = 0
    · simp only [if_pos h0]
      constructor
      · simp
      · intro v hv
        simp only [Option.some.injEq] at hv
        simp [chainValues, hv.symm]
    · by_cases h1 : rank = 1
      · simp only [if_neg h0, if_pos h1]
        constructor
        · simp
        · intro v hv
          simp only [Option.some.injEq] at hv
          exact hv ▸ queryLast_mem cur rest
      · simp only [if_neg h0, if_neg h1]
        constructor
        · simp
        · intro v hv
          simp only [Option.some.injEq] at hv
          exact hv ▸ queryLoop_mem _ 0 cur rest

/-- Claim C10. The operation `query(rank)` returns NaN (`none`) exactly when no value was
ever observed; whenever at least one value was observed — in particular when
all observed values are still pending in the buffer, no flush having
happened yet — `query` returns one of the observed values, because it
flushes the buffer into the chain before answering. -/
theorem claim_C10 (invariants : List (ℚ × ℚ)) (vs : List ℚ) (rank : ℚ) :
    (((runObserves invariants vs).query rank).1 = none ↔ vs = [])
    ∧ ∀ v, ((runObserves invariants vs).query rank).1 = some v → v ∈ vs := by
  constructor
  · constructor
    · intro h
      by_contra hvs
      have hne := foldl_observe_ne vs (Estimator.init invariants) hvs
      have h2 : (runObserves invariants vs).flush.chain ≠ [] :=
        flush_chain_ne _ hne
      exact h2 ((query_fst_cases _ rank).1.mp h)
    · rintro rfl
      apply (query_fst_cases _ rank).1.mpr
      have h0 : (runObserves invariants []).buffer = [] := rfl
      have h1 : (runObserves invariants []).chain = [] := rfl
      rw [flush_of_buffer_nil _ h0]
      simp [Estimator.compress, h1, compressLoop]
  · intro v hv
    have hm := (query_fst_cases _ rank).2 v hv
    have h2 := flush_values _ v hm
    refine foldl_observe_values vs (Estimator.init invariants) vs ?_ (fun y hy => hy) v ?_
    · intro y hy
      simp [Estimator.init, chainValues] at hy
    · tauto


unseal Rat.add Rat.mul Rat.inv Rat.sub in
/-- Witness for C10: observing `7, 2` and querying rank `1/2` returns the
observed value `7`, not NaN. -/
theorem claim_C10_witness :
    ((runObserves [] [7, 2]).query (1/2)).1 = some 7
    ∧ ¬ ((runObserves [] [7, 2]).query (1/2)).1 = none
    ∧ (7 : ℚ) ∈ ([7, 2] : List ℚ) := by
  refine ⟨by decide, ?_, ?_⟩
  · intro h
    exact (by decide : ¬ ([7, 2] : List ℚ) = []) ((claim_C10 [] [7, 2] (1/2)).1.mp h)
  · exact (claim_C10 [] [7, 2] (1/2)).2 7 (by decide)

/-- Method `rotate_step` does not change the rotation period. -/
theorem rotate_step_duration (s : TimeWindowEstimator) :
    s.rotate_step.duration_between_rotates_ms = s.duration_between_rotates_ms := rfl

/-- The number of iterations of the catch-up `while` loop of
`rotate_buckets` when the elapsed time is `t` and the (positive) rotation
period is `d`: zero when `t ≤ d`, one more than for `t − d` otherwise,
in closed form `max(⌊(t − 1) / d⌋, 0)`. -/
theorem rotate_loop_iterate :
    ∀ (fuel : ℕ) (t : ℤ) (s : TimeWindowEstimator),
      0 < s.duration_between_rotates_ms →
      ((t - 1) / s.duration_between_rotates_ms).toNat ≤ fuel →
      TimeWindowEstimator.rotate_loop fuel t s =
        TimeWindowEstimator.rotate_step^[((t - 1) / s.duration_between_rotates_ms).toNat] s
  | 0, t, s, _hd, hfuel => by
    rw [Nat.le_zero.mp hfuel]
    rfl
  | fuel + 1, t, s, hd, hfuel => by
    rw [TimeWindowEstimator.rotate_loop]
    by_cases hlt : s.duration_between_rotates_ms < t
    · rw [if_pos hlt]
      have e1 : (t - 1) / s.duration_between_rotates_ms
          = (t - s.duration_between_rotates_ms - 1) / s.duration_between_rotates_ms + 1 := by
        rw [show t - 1 = (t - s.duration_between_rotates_ms - 1)
              + 1 * s.duration_between_rotates_ms by ring]
        exact Int.add_mul_ediv_right _ 1 (by omega)
      have e2 : 0 ≤ (t - s.duration_between_rotates_ms - 1) / s.duration_between_rotates_ms :=
        Int.ediv_nonneg (by omega) (by omega)
      have ih := rotate_loop_iterate fuel (t - s.duration_between_rotates_ms) s.rotate_step
        (by rw [rotate_step_duration]; exact hd)
        (by rw [rotate_step_duration]; omega)
      rw [rotate_step_duration] at ih
      rw [ih]
      rw [show ((t - 1) / s.duration_between_rotates_ms).toNat
            = ((t - s.duration_between_rotates_ms - 1) /
                s.duration_between_rotates_ms).toNat + 1 by omega]
      rw [Function.iterate_succ_apply]
    · rw [if_neg hlt]
      have hk : ((t - 1) / s.duration_between_rotates_ms).toNat = 0 := by
        rcases le_or_lt 0 (t - 1) with h0 | h0
        · rw [Int.ediv_eq_zero_of_lt h0 (by omega)]
          rfl
        · have := Int.ediv_neg' h0 hd
          omega
      rw [hk]
      rfl

/-- Claim C9. On every `observe` or `query` of the sliding-window estimator,
rotation runs first; the catch-up loop executes `max(⌊(elapsed − 1) /
rotationPeriod⌋, 0)` times — zero, one, or multiple times per call, one
iteration per full rotation period by which the elapsed time exceeds the
period — and each iteration replaces the bucket at `current_bucket` with a
brand-new empty summary, advances `current_bucket` circularly (wrapping to
`0` at `age_buckets`), and advances `last_rotate_time_ms` by one rotation
period. -/
theorem claim_C9 (s : TimeWindowEstimator) (now : ℤ)
    (hd : 0 < s.duration_between_rotates_ms)
    (ha : s.current_bucket < s.age_buckets) :
    s.rotate_buckets now =
      TimeWindowEstimator.rotate_step^[((now - s.last_rotate_time_ms - 1) /
        s.duration_between_rotates_ms).toNat] s
    ∧ (∀ v, s.observe now v = (s.rotate_buckets now).record_all v)
    ∧ (∀ rank, s.query now rank =
        (let s' := s.rotate_buckets now
         let r := (s'.ring_buckets.getD s'.current_bucket
           (Estimator.init s'.invariants)).query rank
         (r.1, { s' with ring_buckets := s'.ring_buckets.set s'.current_bucket r.2 })))
    ∧ s.rotate_step.ring_buckets
        = s.ring_buckets.set s.current_bucket (Estimator.init s.invariants)
    ∧ s.rotate_step.current_bucket = (s.current_bucket + 1) % s.age_buckets
    ∧ s.rotate_step.last_rotate_time_ms
        = s.last_rotate_time_ms + s.duration_between_rotates_ms := by
  refine ⟨?_, fun _v => rfl, fun _rank => rfl, rfl, ?_, rfl⟩
  · have hfuel : ((now - s.last_rotate_time_ms - 1) /
        s.duration_between_rotates_ms).toNat ≤ (now - s.last_rotate_time_ms).toNat := by
      rcases le_or_lt 0 (now - s.last_rotate_time_ms - 1) with h0 | h0
      · have := Int.ediv_le_self s.duration_between_rotates_ms h0
        omega
      · have := Int.ediv_neg' h0 hd
        omega
    exact rotate_loop_iterate _ _ s hd hfuel
  · rw [TimeWindowEstimator.rotate_step]
    dsimp only
    by_cases h : s.age_buckets ≤ s.current_bucket + 1
    · rw [if_pos h, show s.current_bucket + 1 = s.age_buckets by omega, Nat.mod_self]
    · rw [if_neg h, Nat.mod_eq_of_lt (by omega)]


unseal Rat.add Rat.mul Rat.inv Rat.sub in
/-- Witness for C9: a two-bucket window with rotation period `2` ms,
last rotated at time `0`, queried at time `5`: the loop catches up with
`⌊(5 − 0 − 1) / 2⌋ = 2` rotations, leaving `last_rotate_time_ms = 4`. -/
theorem claim_C9_witness :
    (0 : ℤ) < (TimeWindowEstimator.mk [] 0 2 [Estimator.init [], Estimator.init []]
        0 0 2 0 0).duration_between_rotates_ms
    ∧ (TimeWindowEstimator.mk [] 0 2 [Estimator.init [], Estimator.init []]
        0 0 2 0 0).current_bucket
        < (TimeWindowEstimator.mk [] 0 2 [Estimator.init [], Estimator.init []]
            0 0 2 0 0).age_buckets
    ∧ (TimeWindowEstimator.mk [] 0 2 [Estimator.init [], Estimator.init []]
        0 0 2 0 0).rotate_buckets 5
        = TimeWindowEstimator.rotate_step^[((5 -
            (TimeWindowEstimator.mk [] 0 2 [Estimator.init [], Estimator.init []]
              0 0 2 0 0).last_rotate_time_ms - 1) /
            (TimeWindowEstimator.mk [] 0 2 [Estimator.init [], Estimator.init []]
              0 0 2 0 0).duration_between_rotates_ms).toNat]
          (TimeWindowEstimator.mk [] 0 2 [Estimator.init [], Estimator.init []] 0 0 2 0 0)
    ∧ ((TimeWindowEstimator.mk [] 0 2 [Estimator.init [], Estimator.init []]
        0 0 2 0 0).rotate_buckets 5).last_rotate_time_ms = 4 :=
  ⟨by decide, by decide, (claim_C9 _ 5 (by decide) (by decide)).1, by decide⟩

end QE
